import Mathlib

/-!
Shallow embedding of `src/Chapter07/rank.py` and proofs about it.

The program computes fractional ("average") statistical ranks:
`rank_data` normalizes the input, `rerank` stable-sorts it by a key
function applied to the raw payload, and `ranker` scans the sorted
sequence, grouping maximal runs of equal keys and emitting every member
of a run paired with the average of the ordinal positions the run
occupies, via `yield_sequence`.

Modelling decisions, each traceable to the source:

* Python floats carry the rank values; every arithmetic operation the
  program performs on them (`(base+1+base+dups)/2`, `base+dups`) is exact
  on the integers and half-integers that actually occur, so ranks and
  `base` are modelled by exact rationals `ℚ`.
* `sorted(..., key=lambda obj: key(obj.raw))` is Python's stable sort,
  ascending by key.  Any stable sort under the total preorder
  `key a.raw ≤ key b.raw` yields the same list; we use the structurally
  recursive stable sort `List.insertionSort` of the library so that the
  model stays kernel-computable.
* Generators become lists of the values they yield.  `yield_sequence`
  terminates when `next` on its argument iterator signals exhaustion,
  the doctest-documented behaviour of the program's generators; the
  recursion is kept exactly as in the source.
* `rank_data`'s dynamic test `isinstance(seq_or_iter[0], Rank_Data)`
  assumes a homogeneous collection (the spec declares mixed input
  undefined), so the input is a `RankInput`: either a list of plain
  items or a list of already-wrapped `Rank_Data`.  An iterator argument
  is materialized into a list and re-processed, which is the identity on
  the model.  Accessing `seq_or_iter[0]` on an empty collection raises
  `IndexError`; fallible entry points return `Except RankError`.
-/

/-- Error outcomes of the ranking entry point.  The source only ever
fails with Python's `IndexError` (from `seq_or_iter[0]` on an empty
collection); `emptyInputError` is the explicit error the specification's
§7 error taxonomy asks for, included so that statements about it can be
made, though nothing in the source raises it. -/
inductive RankError where
  | indexError : RankError
  | emptyInputError : RankError
deriving DecidableEq

/-- Record from `rank.py`: `Rank_Data(rank_seq, raw)` pairs the tuple of
rank values accumulated so far with the original raw item. -/
structure Rank_Data (α : Type) where
  rank_seq : List ℚ
  raw : α
deriving DecidableEq

/-- Input shapes accepted by `rank_data`: a (materialized) collection of
raw items, or a collection already made of `Rank_Data`.  The source
distinguishes them by inspecting the first element. -/
inductive RankInput (α : Type) where
  | plainList : List α → RankInput α
  | rdList : List (Rank_Data α) → RankInput α

/-- Model of `sorted(rank_data_iter, key=lambda obj: key(obj.raw))` in
`rerank`: the stable sort, ascending by `key` of the raw payload. -/
def sortByKey {α K : Type} [LinearOrder K] (key : α → K)
    (l : List (Rank_Data α)) : List (Rank_Data α) :=
  l.insertionSort (fun a b => key a.raw ≤ key b.raw)

/-- Model of `yield_sequence(rank, same_rank_iter)`: yield `rank` paired
with each item drawn from the iterator, recursively; the generator stops
when the iterator is exhausted. -/
def yield_sequence {α : Type} (rank : ℚ) :
    List (Rank_Data α) → List (ℚ × Rank_Data α)
  | [] => []
  | head :: t => (rank, head) :: yield_sequence rank t

/-- Model of `ranker(sorted_iter, base, same_rank_seq, key)`: when the
sorted iterator is exhausted, flush the current run with the average
rank `(base+1+base+dups)/2`; when the next value's key matches the run's
first member's key, extend the run; otherwise flush the run and restart
from the new value with `base` advanced by the run length.  The source
reads `same_rank_seq[0]`, which presupposes a nonempty run (as every
call in the program guarantees); on an empty run with input remaining
the model yields nothing, a case never reached from `rerank`. -/
def ranker {α K : Type} [LinearOrder K] (key : α → K) :
    List (Rank_Data α) → ℚ → List (Rank_Data α) → List (ℚ × Rank_Data α)
  | [], base, same_rank_seq =>
      yield_sequence ((base + 1 + base + (same_rank_seq.length : ℚ)) / 2)
        same_rank_seq
  | _ :: _, _, [] => []
  | value :: rest, base, s0 :: srest =>
      if key value.raw = key s0.raw then
        ranker key rest base ((s0 :: srest) ++ [value])
      else
        yield_sequence
            ((base + 1 + base + ((s0 :: srest).length : ℚ)) / 2) (s0 :: srest)
          ++ ranker key rest (base + ((s0 :: srest).length : ℚ)) [value]

/-- Model of `rerank(rank_data_iter, key)`: sort by key, split off the
head, and hand head and tail to `ranker` with `base = 0`.  On an empty
collection `next(sorted_iter)` signals exhaustion and the generator
yields nothing (`rank_data` never reaches this case: indexing the first
element has already failed). -/
def rerank {α K : Type} [LinearOrder K] (key : α → K)
    (l : List (Rank_Data α)) : List (ℚ × Rank_Data α) :=
  match sortByKey key l with
  | [] => []
  | head :: tail => ranker key tail 0 [head]

/-- Normalization step of `rank_data`: a collection whose first element
is a `Rank_Data` is passed through unchanged; otherwise every element is
wrapped as `Rank_Data((), raw_data)`. -/
def normalizeInput {α : Type} : RankInput α → List (Rank_Data α)
  | .plainList l => l.map (fun raw_data => Rank_Data.mk [] raw_data)
  | .rdList l => l

/-- Model of `rank_data(seq_or_iter, key)`: on an empty collection
`seq_or_iter[0]` raises `IndexError`; otherwise normalizeInput, run `rerank`,
and pair each resulting rank with the record, appending the rank to the
record's `rank_seq` and keeping `raw`. -/
def rank_data {α K : Type} [LinearOrder K] (key : α → K) :
    RankInput α → Except RankError (List (Rank_Data α))
  | .plainList [] => .error .indexError
  | .rdList [] => .error .indexError
  | inp =>
      .ok ((rerank key (normalizeInput inp)).map
        (fun p => Rank_Data.mk (p.2.rank_seq ++ [p.1]) p.2.raw))

/-- Raw items carried by a `RankInput`, in order. -/
def inputRaws {α : Type} : RankInput α → List α
  | .plainList l => l
  | .rdList l => l.map Rank_Data.raw

/-- Number of records with key strictly below that of `x`. -/
def countLt {α K : Type} [LinearOrder K] (key : α → K)
    (l : List (Rank_Data α)) (x : Rank_Data α) : ℕ :=
  l.countP (fun y => decide (key y.raw < key x.raw))

/-- Number of records with key at most that of `x`. -/
def countLe {α K : Type} [LinearOrder K] (key : α → K)
    (l : List (Rank_Data α)) (x : Rank_Data α) : ℕ :=
  l.countP (fun y => decide (key y.raw ≤ key x.raw))

/-- Average rank of `x` relative to the collection `l`: the mean of the
ordinal positions the run of `x`'s key occupies once `l` is sorted. -/
def avgRank {α K : Type} [LinearOrder K] (key : α → K)
    (l : List (Rank_Data α)) (x : Rank_Data α) : ℚ :=
  ((countLt key l x : ℚ) + 1 + (countLe key l x : ℚ)) / 2

instance keyOrderTotal {α K : Type} [LinearOrder K] (key : α → K) :
    IsTotal (Rank_Data α) (fun a b => key a.raw ≤ key b.raw) :=
  ⟨fun a b => le_total (key a.raw) (key b.raw)⟩

instance keyOrderTrans {α K : Type} [LinearOrder K] (key : α → K) :
    IsTrans (Rank_Data α) (fun a b => key a.raw ≤ key b.raw) :=
  ⟨fun _ _ _ hab hbc => le_trans hab hbc⟩

theorem sortByKey_perm {α K : Type} [LinearOrder K] (key : α → K)
    (l : List (Rank_Data α)) : (sortByKey key l).Perm l :=
  List.perm_insertionSort _ l

theorem sortByKey_sorted {α K : Type} [LinearOrder K] (key : α → K)
    (l : List (Rank_Data α)) :
    List.Sorted (fun a b => key a.raw ≤ key b.raw) (sortByKey key l) :=
  List.sorted_insertionSort _ l

theorem length_sortByKey {α K : Type} [LinearOrder K] (key : α → K)
    (l : List (Rank_Data α)) : (sortByKey key l).length = l.length :=
  List.length_insertionSort _ l

theorem yield_sequence_eq_map {α : Type} (rank : ℚ) (l : List (Rank_Data α)) :
    yield_sequence rank l = l.map (fun x => (rank, x)) := by
  induction l with
  | nil => rfl
  | cons h t ih => simp [yield_sequence, ih]

theorem countLe_split {α K : Type} [LinearOrder K] (key : α → K)
    (l : List (Rank_Data α)) (x : Rank_Data α) :
    countLe key l x
      = countLt key l x
        + l.countP (fun y => decide (key y.raw = key x.raw)) := by
  induction l with
  | nil => rfl
  | cons h t ih =>
    simp only [countLe, countLt, List.countP_cons] at *
    rcases lt_trichotomy (key h.raw) (key x.raw) with hlt | heq | hgt
    · simp [hlt, hlt.le, hlt.ne]
      omega
    · simp [heq]
      omega
    · simp [not_le.mpr hgt, not_lt.mpr hgt.le, hgt.ne.symm]
      omega

theorem ranker_eq_map {α K : Type} [LinearOrder K] (key : α → K)
    (rest : List (Rank_Data α)) :
    ∀ (same : List (Rank_Data α)) (base : ℚ),
      same ≠ [] →
      (∀ x ∈ same, ∀ y ∈ same, key x.raw = key y.raw) →
      List.Sorted (fun a b => key a.raw ≤ key b.raw) (same ++ rest) →
      ranker key rest base same
        = (same ++ rest).map
            (fun x => (base + avgRank key (same ++ rest) x, x)) := by
  induction rest with
  | nil =>
    intro same base hne heq _hsorted
    rw [List.append_nil]
    rw [show ranker key [] base same
          = yield_sequence ((base + 1 + base + (same.length : ℚ)) / 2) same
        from rfl]
    rw [yield_sequence_eq_map]
    apply List.map_congr_left
    intro x hx
    have hLt : countLt key same x = 0 := by
      rw [countLt, List.countP_eq_zero]
      intro a ha
      simp only [decide_eq_true_eq]
      rw [heq a ha x hx]
      exact lt_irrefl _
    have hLe : countLe key same x = same.length := by
      rw [countLe, List.countP_eq_length]
      intro a ha
      simp only [decide_eq_true_eq]
      rw [heq a ha x hx]
    simp only [Prod.mk.injEq, and_true]
    rw [avgRank, hLt, hLe]
    push_cast
    ring
  | cons value rest' ih =>
    intro same base hne heq hsorted
    obtain ⟨s0, srest, rfl⟩ : ∃ s0 srest, same = s0 :: srest := by
      cases same with
      | nil => exact absurd rfl hne
      | cons a b => exact ⟨a, b, rfl⟩
    have hp : List.Pairwise (fun a b => key a.raw ≤ key b.raw)
        ((s0 :: srest) ++ (value :: rest')) := hsorted
    rw [List.pairwise_append] at hp
    obtain ⟨_hp1, hp2, hcross⟩ := hp
    have hs0x : ∀ x ∈ s0 :: srest, key x.raw = key s0.raw :=
      fun x hx => heq x hx s0 (List.mem_cons_self _ _)
    by_cases h : key value.raw = key s0.raw
    · simp only [ranker, if_pos h]
      have hx_all : ∀ x ∈ (s0 :: srest) ++ [value], key x.raw = key s0.raw := by
        intro x hx
        rcases List.mem_append.mp hx with hx | hx
        · exact hs0x x hx
        · rw [List.mem_singleton] at hx
          rw [hx]
          exact h
      have heq' : ∀ x ∈ (s0 :: srest) ++ [value],
          ∀ y ∈ (s0 :: srest) ++ [value], key x.raw = key y.raw :=
        fun x hx y hy => (hx_all x hx).trans (hx_all y hy).symm
      have hsorted' : List.Sorted (fun a b => key a.raw ≤ key b.raw)
          (((s0 :: srest) ++ [value]) ++ rest') := by
        rw [List.append_assoc, List.singleton_append]
        exact hsorted
      rw [ih _ _ (by simp) heq' hsorted']
      rw [List.append_assoc, List.singleton_append]
    · simp only [ranker, if_neg h]
      have hb : ∀ y ∈ value :: rest', key s0.raw < key y.raw := by
        intro y hy
        have hv : key s0.raw < key value.raw :=
          lt_of_le_of_ne
            (hcross s0 (List.mem_cons_self _ _) value (List.mem_cons_self _ _))
            (fun c => h c.symm)
        rcases List.mem_cons.mp hy with rfl | hy'
        · exact hv
        · exact hv.trans_le ((List.pairwise_cons.mp hp2).1 y hy')
      rw [yield_sequence_eq_map, List.map_append]
      congr 1
      · apply List.map_congr_left
        intro x hx
        have hkey : key x.raw = key s0.raw := hs0x x hx
        have hLt : countLt key ((s0 :: srest) ++ (value :: rest')) x = 0 := by
          rw [countLt, List.countP_eq_zero]
          intro a ha
          simp only [decide_eq_true_eq]
          rcases List.mem_append.mp ha with ha | ha
          · rw [hs0x a ha, hkey]
            exact lt_irrefl _
          · rw [hkey]
            exact not_lt.mpr (hb a ha).le
        have hLe : countLe key ((s0 :: srest) ++ (value :: rest')) x
            = (s0 :: srest).length := by
          rw [countLe, List.countP_append]
          have h1 : (s0 :: srest).countP
              (fun y => decide (key y.raw ≤ key x.raw))
              = (s0 :: srest).length := by
            rw [List.countP_eq_length]
            intro a ha
            simp only [decide_eq_true_eq]
            rw [hs0x a ha, hkey]
          have h2 : (value :: rest').countP
              (fun y => decide (key y.raw ≤ key x.raw)) = 0 := by
            rw [List.countP_eq_zero]
            intro a ha
            simp only [decide_eq_true_eq]
            rw [hkey]
            exact not_le.mpr (hb a ha)
          rw [h1, h2]
          omega
        simp only [Prod.mk.injEq, and_true]
        rw [avgRank, hLt, hLe]
        push_cast
        ring
      · have hsorted2 : List.Sorted (fun a b => key a.raw ≤ key b.raw)
            ([value] ++ rest') := by
          rw [List.singleton_append]
          exact hp2
        rw [ih [value] (base + ((s0 :: srest).length : ℚ))
          (by simp) (by simp) hsorted2]
        rw [List.singleton_append]
        apply List.map_congr_left
        intro x hx
        have hgt : key s0.raw < key x.raw := hb x hx
        have hall_lt : ∀ a ∈ s0 :: srest, key a.raw < key x.raw := by
          intro a ha
          rw [hs0x a ha]
          exact hgt
        have hLt : countLt key ((s0 :: srest) ++ (value :: rest')) x
            = (s0 :: srest).length + countLt key (value :: rest') x := by
          rw [countLt, List.countP_append, countLt]
          congr 1
          rw [List.countP_eq_length]
          intro a ha
          simp only [decide_eq_true_eq]
          exact hall_lt a ha
        have hLe : countLe key ((s0 :: srest) ++ (value :: rest')) x
            = (s0 :: srest).length + countLe key (value :: rest') x := by
          rw [countLe, List.countP_append, countLe]
          congr 1
          rw [List.countP_eq_length]
          intro a ha
          simp only [decide_eq_true_eq]
          exact (hall_lt a ha).le
        simp only [Prod.mk.injEq, and_true]
        rw [avgRank, avgRank, hLt, hLe]
        push_cast
        ring

theorem sortByKey_ne_nil {α K : Type} [LinearOrder K] (key : α → K)
    (l : List (Rank_Data α)) (hl : l ≠ []) : sortByKey key l ≠ [] := by
  intro hs
  apply hl
  have := length_sortByKey key l
  rw [hs] at this
  exact List.length_eq_zero.mp this.symm

theorem rerank_eq_map {α K : Type} [LinearOrder K] (key : α → K)
    (l : List (Rank_Data α)) (hl : l ≠ []) :
    rerank key l
      = (sortByKey key l).map
          (fun x => (avgRank key (sortByKey key l) x, x)) := by
  obtain ⟨head, tail, hht⟩ : ∃ h t, sortByKey key l = h :: t := by
    cases hs : sortByKey key l with
    | nil => exact absurd hs (sortByKey_ne_nil key l hl)
    | cons a b => exact ⟨a, b, rfl⟩
  have hsorted : List.Sorted (fun a b => key a.raw ≤ key b.raw)
      ([head] ++ tail) := by
    rw [List.singleton_append, ← hht]
    exact sortByKey_sorted key l
  rw [rerank, hht]
  rw [show (match head :: tail with
      | [] => ([] : List (ℚ × Rank_Data α))
      | head :: tail => ranker key tail 0 [head]) = ranker key tail 0 [head]
    from rfl]
  rw [ranker_eq_map key tail [head] 0 (by simp) (by simp) hsorted]
  rw [List.singleton_append, ← hht]
  apply List.map_congr_left
  intro x _
  rw [zero_add]

theorem rerank_map_snd {α K : Type} [LinearOrder K] (key : α → K)
    (l : List (Rank_Data α)) (hl : l ≠ []) :
    (rerank key l).map Prod.snd = sortByKey key l := by
  rw [rerank_eq_map key l hl, List.map_map]
  have hid : (Prod.snd ∘ fun x : Rank_Data α =>
      (avgRank key (sortByKey key l) x, x)) = id := rfl
  rw [hid, List.map_id]

theorem length_rerank {α K : Type} [LinearOrder K] (key : α → K)
    (l : List (Rank_Data α)) : (rerank key l).length = l.length := by
  by_cases hl : l = []
  · subst hl
    rfl
  · rw [rerank_eq_map key l hl, List.length_map, length_sortByKey]

theorem mem_rerank {α K : Type} [LinearOrder K] (key : α → K)
    (l : List (Rank_Data α)) (hl : l ≠ []) (pr : ℚ × Rank_Data α)
    (hpr : pr ∈ rerank key l) :
    pr.2 ∈ sortByKey key l ∧ pr.1 = avgRank key (sortByKey key l) pr.2 := by
  rw [rerank_eq_map key l hl] at hpr
  obtain ⟨x, hx, hfx⟩ := List.mem_map.mp hpr
  rw [← hfx]
  exact ⟨hx, rfl⟩

theorem rerank_eq_ranker {α K : Type} [LinearOrder K] (key : α → K)
    (l : List (Rank_Data α)) (head : Rank_Data α) (tail : List (Rank_Data α))
    (hht : sortByKey key l = head :: tail) :
    rerank key l = ranker key tail 0 [head] := by
  rw [rerank, hht]

theorem yield_sequence_sum {α : Type} (rank : ℚ) (l : List (Rank_Data α)) :
    ((yield_sequence rank l).map Prod.fst).sum = (l.length : ℚ) * rank := by
  induction l with
  | nil => simp [yield_sequence]
  | cons h t ih =>
    simp only [yield_sequence, List.map_cons, List.sum_cons, ih,
      List.length_cons]
    push_cast
    ring

theorem ranker_sum {α K : Type} [LinearOrder K] (key : α → K) :
    ∀ (rest same : List (Rank_Data α)) (base : ℚ), same ≠ [] →
      ((ranker key rest base same).map Prod.fst).sum
        = ((base + (same.length : ℚ) + (rest.length : ℚ))
              * (base + (same.length : ℚ) + (rest.length : ℚ) + 1)
            - base * (base + 1)) / 2 := by
  intro rest
  induction rest with
  | nil =>
    intro same base _hne
    rw [show ranker key [] base same
          = yield_sequence ((base + 1 + base + (same.length : ℚ)) / 2) same
        from rfl]
    rw [yield_sequence_sum]
    simp only [List.length_nil]
    push_cast
    ring
  | cons value rest' ih =>
    intro same base hne
    obtain ⟨s0, srest, rfl⟩ : ∃ s0 srest, same = s0 :: srest := by
      cases same with
      | nil => exact absurd rfl hne
      | cons a b => exact ⟨a, b, rfl⟩
    by_cases h : key value.raw = key s0.raw
    · simp only [ranker, if_pos h]
      rw [ih ((s0 :: srest) ++ [value]) base (by simp)]
      simp only [List.length_append, List.length_cons, List.length_nil,
        List.length_singleton]
      push_cast
      ring
    · simp only [ranker, if_neg h]
      rw [List.map_append, List.sum_append]
      rw [ih [value] (base + ((s0 :: srest).length : ℚ)) (by simp)]
      rw [yield_sequence_sum]
      simp only [List.length_cons, List.length_nil, List.length_singleton]
      push_cast
      ring

/-- C2: for every finite non-empty input of size n, with any key function
and any tie structure, the sum of the n rank values emitted by one
ranking pass equals n(n+1)/2. -/
theorem sum_of_ranks_invariant {α K : Type} [LinearOrder K] (key : α → K)
    (l : List (Rank_Data α)) (hl : l ≠ []) :
    ((rerank key l).map Prod.fst).sum
      = (l.length : ℚ) * ((l.length : ℚ) + 1) / 2 := by
  obtain ⟨head, tail, hht⟩ : ∃ h t, sortByKey key l = h :: t := by
    cases hs : sortByKey key l with
    | nil => exact absurd hs (sortByKey_ne_nil key l hl)
    | cons a b => exact ⟨a, b, rfl⟩
  rw [rerank_eq_ranker key l head tail hht]
  rw [ranker_sum key tail [head] 0 (by simp)]
  have hn : ((tail.length : ℚ)) + 1 = (l.length : ℚ) := by
    have h1 : (head :: tail).length = l.length := by
      rw [← hht, length_sortByKey]
    rw [List.length_cons] at h1
    exact_mod_cast congrArg (fun n : ℕ => (n : ℚ)) h1
  rw [← hn]
  simp only [List.length_singleton]
  push_cast
  ring

theorem rank_data_ok {α K : Type} [LinearOrder K] (key : α → K)
    (inp : RankInput α) (out : List (Rank_Data α))
    (h : rank_data key inp = .ok out) :
    normalizeInput inp ≠ [] ∧
      out = (rerank key (normalizeInput inp)).map
        (fun p => Rank_Data.mk (p.2.rank_seq ++ [p.1]) p.2.raw) := by
  cases inp with
  | plainList l =>
    cases l with
    | nil => exact absurd h (by simp [rank_data])
    | cons x xs =>
      refine ⟨by simp [normalizeInput], ?_⟩
      rw [show rank_data key (RankInput.plainList (x :: xs))
            = .ok ((rerank key (normalizeInput (RankInput.plainList (x :: xs)))).map
                (fun p => Rank_Data.mk (p.2.rank_seq ++ [p.1]) p.2.raw))
          from rfl] at h
      exact (Except.ok.inj h).symm
  | rdList l =>
    cases l with
    | nil => exact absurd h (by simp [rank_data])
    | cons x xs =>
      refine ⟨by simp [normalizeInput], ?_⟩
      rw [show rank_data key (RankInput.rdList (x :: xs))
            = .ok ((rerank key (normalizeInput (RankInput.rdList (x :: xs)))).map
                (fun p => Rank_Data.mk (p.2.rank_seq ++ [p.1]) p.2.raw))
          from rfl] at h
      exact (Except.ok.inj h).symm

theorem normalizeInput_length {α : Type} (inp : RankInput α) :
    (normalizeInput inp).length = (inputRaws inp).length := by
  cases inp <;> simp [normalizeInput, inputRaws]

theorem normalizeInput_raws {α : Type} (inp : RankInput α) :
    (normalizeInput inp).map Rank_Data.raw = inputRaws inp := by
  cases inp with
  | plainList l =>
    show ((l.map (fun raw_data => Rank_Data.mk [] raw_data)).map
      Rank_Data.raw) = l
    rw [List.map_map]
    exact List.map_id l
  | rdList l => rfl

/-- C3: for every finite non-empty input of size n, the top-level rank
operation produces exactly n output records, in bijection with the input
items: the i-th output record carries the raw item at position i of the
sorted normalized input, and the multiset of output raw items is exactly
the multiset of input items. -/
theorem rank_output_bijection {α K : Type} [LinearOrder K] (key : α → K)
    (inp : RankInput α) (out : List (Rank_Data α))
    (h : rank_data key inp = .ok out) :
    out.length = (inputRaws inp).length
      ∧ out.map Rank_Data.raw
          = (sortByKey key (normalizeInput inp)).map Rank_Data.raw
      ∧ (out.map Rank_Data.raw).Perm (inputRaws inp) := by
  obtain ⟨hne, ho⟩ := rank_data_ok key inp out h
  subst ho
  have hsnd : (rerank key (normalizeInput inp)).map
      (Rank_Data.raw ∘ Prod.snd) = (sortByKey key (normalizeInput inp)).map
        Rank_Data.raw := by
    rw [← List.map_map, rerank_map_snd key _ hne]
  constructor
  · rw [List.length_map, length_rerank, normalizeInput_length]
  constructor
  · rw [List.map_map]
    exact hsnd
  · rw [List.map_map]
    rw [show ((fun r : Rank_Data α => r.raw)
          ∘ fun p : ℚ × Rank_Data α => Rank_Data.mk (p.2.rank_seq ++ [p.1]) p.2.raw)
        = (Rank_Data.raw ∘ Prod.snd) from rfl]
    rw [hsnd]
    rw [← normalizeInput_raws inp]
    exact (sortByKey_perm key _).map _

/-- C4: when the sorted sequence is exhausted, the tie resolver emits
every member of the final run, each paired with the rank
`(base + 1 + base + |current_run|) / 2`, producing exactly one
(rank, record) pair per member; the flush-and-stop equation is total, so
the scan ends without signalling any error. -/
theorem final_flush_emits_run {α K : Type} [LinearOrder K] (key : α → K)
    (base : ℚ) (same_rank_seq : List (Rank_Data α)) :
    ranker key [] base same_rank_seq
      = same_rank_seq.map
          (fun r => ((base + 1 + base + (same_rank_seq.length : ℚ)) / 2, r))
      ∧ (ranker key [] base same_rank_seq).length = same_rank_seq.length := by
  have h1 : ranker key [] base same_rank_seq
      = same_rank_seq.map
          (fun r => ((base + 1 + base + (same_rank_seq.length : ℚ)) / 2, r)) := by
    rw [show ranker key [] base same_rank_seq
          = yield_sequence ((base + 1 + base + (same_rank_seq.length : ℚ)) / 2)
              same_rank_seq
        from rfl]
    exact yield_sequence_eq_map _ _
  exact ⟨h1, by rw [h1, List.length_map]⟩

/-- C6, counterexample: on the empty collection the ranking operation
does not signal `emptyInputError`; it fails with the out-of-bounds
access `seq_or_iter[0]`, i.e. `indexError`. -/
theorem empty_input_not_emptyInputError :
    rank_data (fun q : ℚ => q) (RankInput.plainList [])
        ≠ Except.error RankError.emptyInputError
      ∧ rank_data (fun q : ℚ => q) (RankInput.plainList [])
          = Except.error RankError.indexError := by
  refine ⟨?_, rfl⟩
  intro h
  rw [show rank_data (fun q : ℚ => q) (RankInput.plainList [])
        = Except.error RankError.indexError from rfl] at h
  exact absurd (Except.error.inj h) (by decide)

/-- C6, amended: when the collection to rank contains zero elements, the
ranking operation fails with the out-of-bounds access on the first
element (`IndexError` from `seq_or_iter[0]`); no explicit
`EmptyInputError` is signalled. -/
theorem empty_input_raises_indexError {α K : Type} [LinearOrder K]
    (key : α → K) :
    rank_data key (RankInput.plainList ([] : List α))
        = Except.error RankError.indexError
      ∧ rank_data key (RankInput.rdList ([] : List (Rank_Data α)))
          = Except.error RankError.indexError
      ∧ ∀ inp : RankInput α,
          rank_data key inp ≠ Except.error RankError.emptyInputError := by
  refine ⟨rfl, rfl, ?_⟩
  intro inp h
  cases inp with
  | plainList l =>
    cases l with
    | nil => exact absurd (Except.error.inj h) (by decide)
    | cons x xs => exact absurd h (by simp [rank_data])
  | rdList l =>
    cases l with
    | nil => exact absurd (Except.error.inj h) (by decide)
    | cons x xs => exact absurd h (by simp [rank_data])

theorem rerank_getElem {α K : Type} [LinearOrder K] (key : α → K)
    (l : List (Rank_Data α)) (hne : l ≠ []) (i : ℕ)
    (hi : i < (rerank key l).length) (hs : i < (sortByKey key l).length) :
    (rerank key l)[i]
      = (avgRank key (sortByKey key l) ((sortByKey key l)[i]),
          (sortByKey key l)[i]) := by
  rw [List.getElem_of_eq (rerank_eq_map key l hne), List.getElem_map]

theorem rank_data_raws {α K : Type} [LinearOrder K] (key : α → K)
    (inp : RankInput α) (out : List (Rank_Data α))
    (h : rank_data key inp = .ok out) :
    (out.map Rank_Data.raw).Perm (inputRaws inp) := by
  obtain ⟨hne, ho⟩ := rank_data_ok key inp out h
  subst ho
  rw [List.map_map]
  rw [show ((fun r : Rank_Data α => r.raw)
        ∘ fun p : ℚ × Rank_Data α => Rank_Data.mk (p.2.rank_seq ++ [p.1]) p.2.raw)
      = (Rank_Data.raw ∘ Prod.snd) from rfl]
  rw [← List.map_map, rerank_map_snd key _ hne]
  rw [← normalizeInput_raws inp]
  exact (sortByKey_perm key _).map _

/-- C5: ranking a collection that is itself the output of a previous
ranking pass (a collection of `Rank_Data`) produces, at each position of
the sorted input, a record whose `rank_seq` is the corresponding input
record's `rank_seq` with exactly one rank appended and whose `raw` is
unchanged; moreover `raw` payloads are never created, dropped or altered
by a pass on either input shape. -/
theorem rank_pass_composability {α K : Type} [LinearOrder K] (key : α → K)
    (l : List (Rank_Data α)) (out : List (Rank_Data α))
    (h : rank_data key (RankInput.rdList l) = .ok out) :
    out.length = l.length
      ∧ (∀ i (hi : i < out.length) (hs : i < (sortByKey key l).length),
          ∃ r : ℚ,
            (out.get ⟨i, hi⟩).rank_seq
                = ((sortByKey key l).get ⟨i, hs⟩).rank_seq ++ [r]
              ∧ (out.get ⟨i, hi⟩).raw = ((sortByKey key l).get ⟨i, hs⟩).raw)
      ∧ (out.map Rank_Data.raw).Perm (l.map Rank_Data.raw)
      ∧ ∀ (m : List α) (out2 : List (Rank_Data α)),
          rank_data key (RankInput.plainList m) = .ok out2 →
          (out2.map Rank_Data.raw).Perm m := by
  obtain ⟨hne, ho⟩ := rank_data_ok key (RankInput.rdList l) out h
  have hnl : normalizeInput (RankInput.rdList l) = l := rfl
  rw [hnl] at hne ho
  refine ⟨?_, ?_, rank_data_raws key (RankInput.rdList l) out h,
    fun m out2 h2 => rank_data_raws key (RankInput.plainList m) out2 h2⟩
  · rw [ho, List.length_map, length_rerank]
  · subst ho
    intro i hi hs
    rw [List.length_map] at hi
    refine ⟨avgRank key (sortByKey key l) ((sortByKey key l).get ⟨i, hs⟩),
      ?_, ?_⟩
    · rw [List.get_eq_getElem, List.get_eq_getElem, List.getElem_map,
        rerank_getElem key l hne i hi hs]
    · rw [List.get_eq_getElem, List.get_eq_getElem, List.getElem_map,
        rerank_getElem key l hne i hi hs]

theorem countP_eq_of_index {β : Type} :
    ∀ (l : List β) (p : β → Bool) (m : ℕ), m ≤ l.length →
      (∀ (i : ℕ) (hi : i < l.length), p l[i] = decide (i < m)) →
      l.countP p = m
  | [], _, m, hm, _ => by
      have hm0 : m = 0 := Nat.le_zero.mp (by simpa using hm)
      subst hm0
      rfl
  | y :: t, p, m, hm, h => by
      rw [List.countP_cons]
      cases m with
      | zero =>
        have hy : p y = false := by
          have h0 := h 0 (by simp)
          simpa using h0
        have ht : t.countP p = 0 :=
          countP_eq_of_index t p 0 (Nat.zero_le _) (fun i hi => by
            have hsucc := h (i + 1) (by simp only [List.length_cons]; omega)
            simpa using hsucc)
        simp [hy, ht]
      | succ m' =>
        have hy : p y = true := by
          have h0 := h 0 (by simp)
          simpa using h0
        have ht : t.countP p = m' :=
          countP_eq_of_index t p m'
            (by simp only [List.length_cons] at hm; omega)
            (fun i hi => by
              have hsucc := h (i + 1) (by simp only [List.length_cons]; omega)
              rw [List.getElem_cons_succ] at hsucc
              rw [hsucc]
              exact decide_eq_decide.mpr (by omega))
        simp [hy, ht]

theorem sorted_key_lt_of_nodup {α K : Type} [LinearOrder K] (key : α → K)
    (s : List (Rank_Data α))
    (hsort : List.Sorted (fun a b => key a.raw ≤ key b.raw) s)
    (hnd : (s.map fun r => key r.raw).Nodup) :
    ∀ (i j : ℕ) (hi : i < s.length) (hj : j < s.length), i < j →
      key s[i].raw < key s[j].raw := by
  intro i j hi hj hij
  have hle : key s[i].raw ≤ key s[j].raw := by
    have := hsort.rel_get_of_lt
      (show (⟨i, hi⟩ : Fin s.length) < ⟨j, hj⟩ from Fin.mk_lt_mk.mpr hij)
    simpa [List.get_eq_getElem] using this
  have hne : key s[i].raw ≠ key s[j].raw := by
    have hpw : (s.map fun r => key r.raw).Pairwise (· ≠ ·) := hnd
    rw [List.pairwise_iff_get] at hpw
    have hi' : i < (s.map fun r => key r.raw).length := by simpa using hi
    have hj' : j < (s.map fun r => key r.raw).length := by simpa using hj
    have := hpw ⟨i, hi'⟩ ⟨j, hj'⟩ (Fin.mk_lt_mk.mpr hij)
    simpa [List.get_eq_getElem] using this
  exact lt_of_le_of_ne hle hne

/-- C7: for every finite non-empty input whose keys are pairwise
distinct under the given key function, every emitted rank is the
(integer) 1-based position of its record in ascending key order. -/
theorem distinct_keys_integer_ranks {α K : Type} [LinearOrder K]
    (key : α → K) (l : List (Rank_Data α)) (hl : l ≠ [])
    (hnodup : (l.map fun r => key r.raw).Nodup) :
    ∀ i (hi : i < (rerank key l).length),
      ((rerank key l).get ⟨i, hi⟩).1 = (i : ℚ) + 1 := by
  intro i hi
  have hs : i < (sortByKey key l).length := by
    rw [length_sortByKey]
    rw [length_rerank] at hi
    exact hi
  have hnd : ((sortByKey key l).map fun r => key r.raw).Nodup :=
    (((sortByKey_perm key l).map fun r => key r.raw).nodup_iff).mpr hnodup
  have hmono := sorted_key_lt_of_nodup key (sortByKey key l)
    (sortByKey_sorted key l) hnd
  rw [List.get_eq_getElem, rerank_getElem key l hl i hi hs]
  have hLt : countLt key (sortByKey key l) (sortByKey key l)[i] = i := by
    apply countP_eq_of_index _ _ i (le_of_lt hs)
    intro j hj
    show decide (key ((sortByKey key l)[j]).raw
        < key ((sortByKey key l)[i]).raw) = decide (j < i)
    apply decide_eq_decide.mpr
    constructor
    · intro hlt
      by_contra hji
      rcases Nat.lt_or_ge i j with hij | hij
      · exact absurd (hmono i j hs hj hij) (not_lt.mpr hlt.le)
      · have : i = j := by omega
        subst this
        exact lt_irrefl _ hlt
    · intro hji
      exact hmono j i hj hs hji
  have hLe : countLe key (sortByKey key l) (sortByKey key l)[i] = i + 1 := by
    apply countP_eq_of_index _ _ (i + 1) hs
    intro j hj
    show decide (key ((sortByKey key l)[j]).raw
        ≤ key ((sortByKey key l)[i]).raw) = decide (j < i + 1)
    apply decide_eq_decide.mpr
    constructor
    · intro hle
      by_contra hji
      have hij : i < j := by omega
      exact absurd hle (not_le.mpr (hmono i j hs hj hij))
    · intro hji
      rcases Nat.lt_or_ge j i with hij | hij
      · exact (hmono j i hj hs hij).le
      · have : j = i := by omega
        subst this
        exact le_refl _
  rw [avgRank, hLt, hLe]
  push_cast
  ring

/-- C1: in the sorted order, a maximal run of equal-keyed records
occupying ordinal positions `p+1 .. p+k` (`p = a.length` records sorted
before it, `k = b.length` members, flanked by a different key on either
side) gives every one of its members the identical rank
`p + (k+1)/2 = (p + 1 + p + k) / 2`, where `p` is the number of items
ranked before the run. -/
theorem tie_run_average_rank {α K : Type} [LinearOrder K] (key : α → K)
    (l : List (Rank_Data α)) (a b c : List (Rank_Data α))
    (hs : sortByKey key l = a ++ b ++ c)
    (hb_ne : b ≠ [])
    (hb : ∀ x ∈ b, ∀ y ∈ b, key x.raw = key y.raw)
    (hleft : ∀ x, a.getLast? = some x → ∀ y ∈ b, key x.raw ≠ key y.raw)
    (hright : ∀ x, c.head? = some x → ∀ y ∈ b, key x.raw ≠ key y.raw) :
    ∀ i (hi : i < (rerank key l).length),
      a.length ≤ i → i < a.length + b.length →
      ((rerank key l).get ⟨i, hi⟩).1
        = (a.length : ℚ) + ((b.length : ℚ) + 1) / 2 := by
  obtain ⟨b0, btl, rfl⟩ : ∃ p q, b = p :: q := by
    cases b with
    | nil => exact absurd rfl hb_ne
    | cons p q => exact ⟨p, q, rfl⟩
  have hl : l ≠ [] := by
    intro hnil
    subst hnil
    rw [show sortByKey key ([] : List (Rank_Data α)) = [] from rfl] at hs
    have := congrArg List.length hs
    simp at this
    omega
  have hsort : List.Sorted (fun x y => key x.raw ≤ key y.raw)
      ((a ++ (b0 :: btl)) ++ c) := by
    rw [← hs]
    exact sortByKey_sorted key l
  have hp : List.Pairwise (fun x y => key x.raw ≤ key y.raw)
      ((a ++ (b0 :: btl)) ++ c) := hsort
  rw [List.pairwise_append] at hp
  obtain ⟨hpab, hpc, hcross_ab_c⟩ := hp
  rw [List.pairwise_append] at hpab
  obtain ⟨hpa, _hpb, hcross_ab⟩ := hpab
  have hbkey : ∀ y ∈ b0 :: btl, key y.raw = key b0.raw :=
    fun y hy => hb y hy b0 (List.mem_cons_self _ _)
  have hA : ∀ x ∈ a, key x.raw < key b0.raw := by
    intro x hx
    have hxle : key x.raw ≤ key b0.raw :=
      hcross_ab x hx b0 (List.mem_cons_self _ _)
    refine lt_of_le_of_ne hxle ?_
    intro hEq
    obtain ⟨alast, ha⟩ : ∃ z, a.getLast? = some z := by
      cases a with
      | nil => cases hx
      | cons p q => exact ⟨(p :: q).getLast (by simp),
          List.getLast?_eq_getLast _ (by simp)⟩
    obtain ⟨a', haa⟩ := List.getLast?_eq_some_iff.mp ha
    have halast_b : key alast.raw ≤ key b0.raw :=
      hcross_ab alast
        (by rw [haa]; exact List.mem_append_right _ (List.mem_singleton_self _))
        b0 (List.mem_cons_self _ _)
    have hx_last : key x.raw ≤ key alast.raw := by
      rw [haa] at hx hpa
      rw [List.pairwise_append] at hpa
      rcases List.mem_append.mp hx with hx' | hx'
      · exact hpa.2.2 x hx' alast (List.mem_singleton_self _)
      · rw [List.mem_singleton] at hx'
        rw [hx']
    have hlb : key alast.raw = key b0.raw := by
      apply le_antisymm halast_b
      rw [← hEq]
      exact hx_last
    exact hleft alast ha b0 (List.mem_cons_self _ _) hlb
  have hC : ∀ y ∈ c, key b0.raw < key y.raw := by
    intro y hy
    have hb0mem : b0 ∈ a ++ (b0 :: btl) :=
      List.mem_append_right _ (List.mem_cons_self _ _)
    have hb0c : key b0.raw ≤ key y.raw := hcross_ab_c b0 hb0mem y hy
    refine lt_of_le_of_ne hb0c ?_
    intro hEq
    obtain ⟨chd, ctl, rfl⟩ : ∃ p q, c = p :: q := by
      cases c with
      | nil => cases hy
      | cons p q => exact ⟨p, q, rfl⟩
    have hchd_le : key chd.raw ≤ key y.raw := by
      rcases List.mem_cons.mp hy with rfl | hy'
      · exact le_refl _
      · exact (List.pairwise_cons.mp hpc).1 y hy'
    have hb0_chd : key b0.raw ≤ key chd.raw :=
      hcross_ab_c b0 hb0mem chd (List.mem_cons_self _ _)
    have hcb : key chd.raw = key b0.raw := by
      apply le_antisymm ?_ hb0_chd
      rw [hEq]
      exact hchd_le
    exact hright chd rfl b0 (List.mem_cons_self _ _) hcb
  intro i hi hpi hik
  have hs_len : i < (sortByKey key l).length := by
    rw [length_sortByKey]
    rw [length_rerank] at hi
    exact hi
  have hbound : i - a.length < (b0 :: btl).length := by
    rw [List.length_cons] at hik ⊢
    omega
  have hiab : i < (a ++ (b0 :: btl)).length := by
    rw [List.length_append]
    rw [List.length_cons] at hik ⊢
    omega
  have hiabc : i < ((a ++ (b0 :: btl)) ++ c).length := by
    rw [List.length_append]
    omega
  have e1 : ((a ++ (b0 :: btl)) ++ c)[i] = (a ++ (b0 :: btl))[i] :=
    List.getElem_append_left hiab
  have e2 : (a ++ (b0 :: btl))[i]
      = (b0 :: btl)[i - a.length] :=
    List.getElem_append_right hpi
  have ex : (sortByKey key l)[i]
      = (b0 :: btl)[i - a.length] := by
    rw [List.getElem_of_eq hs, e1, e2]
  have hkey : key ((b0 :: btl)[i - a.length]).raw = key b0.raw :=
    hbkey _ (List.getElem_mem _)
  rw [List.get_eq_getElem, rerank_getElem key l hl i hi hs_len]
  rw [show (avgRank key (sortByKey key l) ((sortByKey key l)[i]),
        (sortByKey key l)[i]).1
      = avgRank key (sortByKey key l) ((sortByKey key l)[i])
    from rfl]
  rw [ex]
  set x := (b0 :: btl)[i - a.length] with hxdef
  have hLt : countLt key (sortByKey key l) x = a.length := by
    rw [countLt, hs, List.countP_append, List.countP_append]
    have h1 : a.countP (fun y => decide (key y.raw < key x.raw))
        = a.length := by
      rw [List.countP_eq_length]
      intro y hy
      simp only [decide_eq_true_eq]
      rw [hkey]
      exact hA y hy
    have h2 : (b0 :: btl).countP (fun y => decide (key y.raw < key x.raw))
        = 0 := by
      rw [List.countP_eq_zero]
      intro y hy
      simp only [decide_eq_true_eq]
      rw [hkey, hbkey y hy]
      exact lt_irrefl _
    have h3 : c.countP (fun y => decide (key y.raw < key x.raw)) = 0 := by
      rw [List.countP_eq_zero]
      intro y hy
      simp only [decide_eq_true_eq]
      rw [hkey]
      exact not_lt.mpr (hC y hy).le
    rw [h1, h2, h3]
    omega
  have hLe : countLe key (sortByKey key l) x
      = a.length + (b0 :: btl).length := by
    rw [countLe, hs, List.countP_append, List.countP_append]
    have h1 : a.countP (fun y => decide (key y.raw ≤ key x.raw))
        = a.length := by
      rw [List.countP_eq_length]
      intro y hy
      simp only [decide_eq_true_eq]
      rw [hkey]
      exact (hA y hy).le
    have h2 : (b0 :: btl).countP (fun y => decide (key y.raw ≤ key x.raw))
        = (b0 :: btl).length := by
      rw [List.countP_eq_length]
      intro y hy
      simp only [decide_eq_true_eq]
      rw [hkey, hbkey y hy]
    have h3 : c.countP (fun y => decide (key y.raw ≤ key x.raw)) = 0 := by
      rw [List.countP_eq_zero]
      intro y hy
      simp only [decide_eq_true_eq]
      rw [hkey]
      exact not_le.mpr (hC y hy)
    rw [h1, h2, h3]
    omega
  rw [avgRank, hLt, hLe]
  push_cast
  ring

theorem avgRank_key_congr {α K : Type} [LinearOrder K] (key : α → K)
    (s : List (Rank_Data α)) (x y : Rank_Data α)
    (h : key x.raw = key y.raw) :
    avgRank key s x = avgRank key s y := by
  rw [avgRank, avgRank, countLt, countLt, countLe, countLe]
  rw [show (fun z : Rank_Data α => decide (key z.raw < key x.raw))
      = (fun z : Rank_Data α => decide (key z.raw < key y.raw))
    from funext fun z => by rw [h]]
  rw [show (fun z : Rank_Data α => decide (key z.raw ≤ key x.raw))
      = (fun z : Rank_Data α => decide (key z.raw ≤ key y.raw))
    from funext fun z => by rw [h]]

/-- C8: records with equal keys are emitted with the identical rank
value, equal-keyed records are consecutive in the emission order, and
the emission order restricted to each key equals the original input
order (the sort performed before tie resolution is stable). -/
theorem equal_keys_consecutive_stable {α K : Type} [LinearOrder K]
    (key : α → K) (l : List (Rank_Data α)) :
    (∀ pr1 ∈ rerank key l, ∀ pr2 ∈ rerank key l,
        key pr1.2.raw = key pr2.2.raw → pr1.1 = pr2.1)
      ∧ (∀ (i j m : ℕ) (hi : i < (rerank key l).length)
            (hj : j < (rerank key l).length) (hm : m < (rerank key l).length),
          i ≤ m → m ≤ j →
          key ((rerank key l).get ⟨i, hi⟩).2.raw
              = key ((rerank key l).get ⟨j, hj⟩).2.raw →
          key ((rerank key l).get ⟨m, hm⟩).2.raw
              = key ((rerank key l).get ⟨i, hi⟩).2.raw)
      ∧ ∀ x : K,
          ((rerank key l).map Prod.snd).filter
              (fun r => decide (key r.raw = x))
            = l.filter (fun r => decide (key r.raw = x)) := by
  by_cases hl : l = []
  · subst hl
    refine ⟨?_, ?_, ?_⟩
    · intro pr1 h1
      cases h1
    · intro i j m hi
      rw [show rerank key ([] : List (Rank_Data α)) = [] from rfl] at hi
      cases hi
    · intro x
      rfl
  · refine ⟨?_, ?_, ?_⟩
    · intro pr1 h1 pr2 h2 hk
      obtain ⟨_, e1⟩ := mem_rerank key l hl pr1 h1
      obtain ⟨_, e2⟩ := mem_rerank key l hl pr2 h2
      rw [e1, e2]
      exact avgRank_key_congr key _ _ _ hk
    · intro i j m hi hj hm him hmj hij
      have hi' : i < (sortByKey key l).length := by
        rw [length_sortByKey]
        rw [length_rerank] at hi
        exact hi
      have hj' : j < (sortByKey key l).length := by
        rw [length_sortByKey]
        rw [length_rerank] at hj
        exact hj
      have hm' : m < (sortByKey key l).length := by
        rw [length_sortByKey]
        rw [length_rerank] at hm
        exact hm
      have gi : ((rerank key l).get ⟨i, hi⟩).2
          = (sortByKey key l).get ⟨i, hi'⟩ := by
        rw [List.get_eq_getElem, rerank_getElem key l hl i hi hi',
          List.get_eq_getElem]
      have gj : ((rerank key l).get ⟨j, hj⟩).2
          = (sortByKey key l).get ⟨j, hj'⟩ := by
        rw [List.get_eq_getElem, rerank_getElem key l hl j hj hj',
          List.get_eq_getElem]
      have gm : ((rerank key l).get ⟨m, hm⟩).2
          = (sortByKey key l).get ⟨m, hm'⟩ := by
        rw [List.get_eq_getElem, rerank_getElem key l hl m hm hm',
          List.get_eq_getElem]
      rw [gi, gj] at hij
      rw [gm, gi]
      have hsort := sortByKey_sorted key l
      have hrel : ∀ (u v : ℕ) (hu : u < (sortByKey key l).length)
          (hv : v < (sortByKey key l).length), u ≤ v →
          key ((sortByKey key l).get ⟨u, hu⟩).raw
            ≤ key ((sortByKey key l).get ⟨v, hv⟩).raw := by
        intro u v hu hv huv
        rcases Nat.lt_or_ge u v with hlt | hge
        · exact hsort.rel_get_of_lt (Fin.mk_lt_mk.mpr hlt)
        · have huv' : u = v := by omega
          subst huv'
          exact le_refl _
      have h1 := hrel i m hi' hm' him
      have h2 := hrel m j hm' hj' hmj
      rw [← hij] at h2
      exact le_antisymm h2 h1
    · intro x
      rw [rerank_map_snd key l hl]
      have hidem : (l.filter (fun r => decide (key r.raw = x))).filter
          (fun r => decide (key r.raw = x))
          = l.filter (fun r => decide (key r.raw = x)) :=
        List.filter_eq_self.mpr (fun a ha => (List.mem_filter.mp ha).2)
      have hpw : (l.filter (fun r => decide (key r.raw = x))).Pairwise
          (fun a b => key a.raw ≤ key b.raw) := by
        apply List.pairwise_of_forall_mem_list
        intro a ha b hb
        have ha' : key a.raw = x := by
          have := (List.mem_filter.mp ha).2
          simpa using this
        have hb' : key b.raw = x := by
          have := (List.mem_filter.mp hb).2
          simpa using this
        rw [ha', hb']
      have hsub : (l.filter (fun r => decide (key r.raw = x))).Sublist
          (sortByKey key l) :=
        List.sublist_insertionSort hpw (List.filter_sublist l)
      have hsub2 : (l.filter (fun r => decide (key r.raw = x))).Sublist
          ((sortByKey key l).filter (fun r => decide (key r.raw = x))) := by
        have := hsub.filter (fun r => decide (key r.raw = x))
        rwa [hidem] at this
      have hlen : (l.filter (fun r => decide (key r.raw = x))).length
          = ((sortByKey key l).filter
              (fun r => decide (key r.raw = x))).length := by
        rw [← List.countP_eq_length_filter, ← List.countP_eq_length_filter]
        exact ((sortByKey_perm key l).countP_eq _).symm
      exact (hsub2.eq_of_length hlen).symm

theorem countLt_lt_countLe {α K : Type} [LinearOrder K] (key : α → K)
    (s : List (Rank_Data α)) (x : Rank_Data α) (hx : x ∈ s) :
    countLt key s x + 1 ≤ countLe key s x := by
  rw [countLe_split key s x]
  have hpos : 0 < s.countP (fun y => decide (key y.raw = key x.raw)) := by
    rw [List.countP_pos_iff]
    exact ⟨x, hx, by simp⟩
  omega

theorem rerank_rank_shape {α K : Type} [LinearOrder K] (key : α → K)
    (l : List (Rank_Data α)) (hl : l ≠ []) (pr : ℚ × Rank_Data α)
    (hpr : pr ∈ rerank key l) :
    ∃ u v : ℕ, pr.1 = ((u : ℚ) + 1 + (v : ℚ)) / 2
      ∧ u + 1 ≤ v ∧ v ≤ l.length := by
  obtain ⟨hmem, hval⟩ := mem_rerank key l hl pr hpr
  refine ⟨countLt key (sortByKey key l) pr.2,
    countLe key (sortByKey key l) pr.2, ?_, ?_, ?_⟩
  · rw [hval, avgRank]
  · exact countLt_lt_countLe key _ pr.2 hmem
  · rw [← length_sortByKey key l]
    exact List.countP_le_length _

/-- C10: every rank emitted by one ranking pass over n records lies in
the closed interval [1, n], and twice the rank is a positive integer
(every rank is integral or half-integral). -/
theorem rank_bounds_half_integral {α K : Type} [LinearOrder K]
    (key : α → K) (l : List (Rank_Data α)) (hl : l ≠ []) :
    ∀ pr ∈ rerank key l,
      1 ≤ pr.1 ∧ pr.1 ≤ (l.length : ℚ)
        ∧ ∃ m : ℕ, 0 < m ∧ 2 * pr.1 = (m : ℚ) := by
  intro pr hpr
  obtain ⟨u, v, hval, huv, hvn⟩ := rerank_rank_shape key l hl pr hpr
  have hu : (0 : ℚ) ≤ (u : ℚ) := Nat.cast_nonneg u
  have huv' : (u : ℚ) + 1 ≤ (v : ℚ) := by exact_mod_cast huv
  have hvn' : (v : ℚ) ≤ (l.length : ℚ) := by exact_mod_cast hvn
  refine ⟨?_, ?_, u + 1 + v, by omega, ?_⟩
  · rw [hval]
    linarith
  · rw [hval]
    linarith
  · rw [hval]
    push_cast
    ring

theorem countP_congr_two {β γ : Type} :
    ∀ (l1 : List β) (l2 : List γ) (p : β → Bool) (q : γ → Bool),
      l1.length = l2.length →
      (∀ (i : ℕ) (h1 : i < l1.length) (h2 : i < l2.length), p l1[i] = q l2[i]) →
      l1.countP p = l2.countP q
  | [], [], _, _, _, _ => rfl
  | [], y :: t, p, q, hlen, _ => absurd hlen (by simp)
  | x :: s, [], p, q, hlen, _ => absurd hlen (by simp)
  | x :: s, y :: t, p, q, hlen, h => by
      rw [List.countP_cons, List.countP_cons]
      have h0 := h 0 (by simp) (by simp)
      simp only [List.getElem_cons_zero] at h0
      have ht : s.countP p = t.countP q :=
        countP_congr_two s t p q (by simpa using hlen) (fun i h1 h2 => by
          have hsucc := h (i + 1) (by simp only [List.length_cons]; omega)
            (by simp only [List.length_cons]; omega)
          simpa using hsucc)
      rw [h0, ht]

theorem ranks_perm_avgRank {α K : Type} [LinearOrder K] (key : α → K)
    (l : List (Rank_Data α)) :
    ((rerank key l).map Prod.fst).Perm
      (l.map (fun x => avgRank key l x)) := by
  by_cases hl : l = []
  · subst hl
    exact List.Perm.refl _
  · rw [rerank_eq_map key l hl, List.map_map]
    rw [show (Prod.fst ∘ fun x : Rank_Data α =>
          (avgRank key (sortByKey key l) x, x))
        = fun x => avgRank key (sortByKey key l) x from rfl]
    have hcong : ∀ x : Rank_Data α,
        avgRank key (sortByKey key l) x = avgRank key l x := by
      intro x
      rw [avgRank, avgRank, countLt, countLt, countLe, countLe,
        (sortByKey_perm key l).countP_eq, (sortByKey_perm key l).countP_eq]
    rw [show (fun x : Rank_Data α => avgRank key (sortByKey key l) x)
        = fun x => avgRank key l x from funext hcong]
    exact (sortByKey_perm key l).map _

/-- C9: every assigned rank value is strictly positive, and for two
inputs of equal length whose keys induce the same pairwise order (hence
the same sorted arrangement and tie runs), the multiset of assigned
ranks is identical: ranks depend only on the relative order of keys,
never on the raw items. -/
theorem ranks_positive_key_determined {α β K L : Type} [LinearOrder K]
    [LinearOrder L] (key1 : α → K) (key2 : β → L)
    (l1 : List (Rank_Data α)) (l2 : List (Rank_Data β)) :
    (∀ pr ∈ rerank key1 l1, 0 < pr.1)
      ∧ (l1.length = l2.length →
          (∀ (i : ℕ) (hi1 : i < l1.length) (hi2 : i < l2.length)
              (j : ℕ) (hj1 : j < l1.length) (hj2 : j < l2.length),
            (key1 (l1.get ⟨i, hi1⟩).raw ≤ key1 (l1.get ⟨j, hj1⟩).raw
              ↔ key2 (l2.get ⟨i, hi2⟩).raw ≤ key2 (l2.get ⟨j, hj2⟩).raw)) →
          ((rerank key1 l1).map Prod.fst).Perm
            ((rerank key2 l2).map Prod.fst)) := by
  constructor
  · intro pr hpr
    have hl : l1 ≠ [] := by
      intro hnil
      subst hnil
      cases hpr
    obtain ⟨u, v, hval, huv, _⟩ := rerank_rank_shape key1 l1 hl pr hpr
    have hu : (0 : ℚ) ≤ (u : ℚ) := Nat.cast_nonneg u
    have huv' : (u : ℚ) + 1 ≤ (v : ℚ) := by exact_mod_cast huv
    rw [hval]
    linarith
  · intro hlen hiff
    have hmapeq : l1.map (fun x => avgRank key1 l1 x)
        = l2.map (fun x => avgRank key2 l2 x) := by
      apply List.ext_get (by simp [hlen])
      intro n h1 h2
      rw [List.length_map] at h1 h2
      rw [List.get_eq_getElem, List.get_eq_getElem, List.getElem_map,
        List.getElem_map]
      have hLt : countLt key1 l1 l1[n] = countLt key2 l2 l2[n] := by
        apply countP_congr_two l1 l2 _ _ hlen
        intro i hi1 hi2
        show decide (key1 (l1[i]).raw < key1 (l1[n]).raw)
          = decide (key2 (l2[i]).raw < key2 (l2[n]).raw)
        apply decide_eq_decide.mpr
        rw [lt_iff_not_le, lt_iff_not_le]
        exact not_congr (hiff n h1 h2 i hi1 hi2)
      have hLe : countLe key1 l1 l1[n] = countLe key2 l2 l2[n] := by
        apply countP_congr_two l1 l2 _ _ hlen
        intro i hi1 hi2
        show decide (key1 (l1[i]).raw ≤ key1 (l1[n]).raw)
          = decide (key2 (l2[i]).raw ≤ key2 (l2[n]).raw)
        apply decide_eq_decide.mpr
        exact hiff i hi1 hi2 n h1 h2
      rw [avgRank, avgRank, hLt, hLe]
    have p1 := ranks_perm_avgRank key1 l1
    have p2 := ranks_perm_avgRank key2 l2
    rw [hmapeq] at p1
    exact p1.trans p2.symm

/-- Identity key on rationals, used to evaluate the model on the
concrete inputs below. -/
def keyQ : ℚ → ℚ := fun q => q

/-- Concrete input with one interior tie run: raw values 2, 1, 3, 2. -/
def lW : List (Rank_Data ℚ) := [⟨[], 2⟩, ⟨[], 1⟩, ⟨[], 3⟩, ⟨[], 2⟩]

/-- Records sorted before the tie run of `lW`. -/
def aW : List (Rank_Data ℚ) := [⟨[], 1⟩]

/-- The tie run of `lW`: the two records with raw value 2. -/
def bW : List (Rank_Data ℚ) := [⟨[], 2⟩, ⟨[], 2⟩]

/-- Records sorted after the tie run of `lW`. -/
def cW : List (Rank_Data ℚ) := [⟨[], 3⟩]

/-- Concrete all-equal input: raw values 5, 5, 5. -/
def lW3 : List (Rank_Data ℚ) := [⟨[], 5⟩, ⟨[], 5⟩, ⟨[], 5⟩]


section WitnessEvaluation

attribute [local semireducible] Rat.add Rat.mul Rat.inv Rat.sub

theorem tie_run_average_rank_witness :
    sortByKey keyQ lW = aW ++ bW ++ cW
      ∧ bW ≠ []
      ∧ (∀ x ∈ bW, ∀ y ∈ bW, keyQ x.raw = keyQ y.raw)
      ∧ (∀ x, aW.getLast? = some x → ∀ y ∈ bW, keyQ x.raw ≠ keyQ y.raw)
      ∧ (∀ x, cW.head? = some x → ∀ y ∈ bW, keyQ x.raw ≠ keyQ y.raw)
      ∧ aW.length ≤ 1 ∧ 1 < aW.length + bW.length
      ∧ ((rerank keyQ lW).get ⟨1, by decide⟩).1
          = (aW.length : ℚ) + ((bW.length : ℚ) + 1) / 2 :=
  ⟨by decide, by decide, by decide,
    fun x hx => by cases Option.some.inj hx; decide,
    fun x hx => by cases Option.some.inj hx; decide,
    by decide, by decide,
    tie_run_average_rank keyQ lW aW bW cW (by decide) (by decide) (by decide)
      (fun x hx => by cases Option.some.inj hx; decide)
      (fun x hx => by cases Option.some.inj hx; decide)
      1 (by decide) (by decide) (by decide)⟩

theorem sum_of_ranks_invariant_witness :
    lW3 ≠ []
      ∧ ((rerank keyQ lW3).map Prod.fst).sum
          = (lW3.length : ℚ) * ((lW3.length : ℚ) + 1) / 2 :=
  ⟨by decide, sum_of_ranks_invariant keyQ lW3 (by decide)⟩

theorem rank_output_bijection_witness :
    rank_data keyQ (RankInput.plainList [2, 1])
        = Except.ok [⟨[1], 1⟩, ⟨[2], 2⟩]
      ∧ (([⟨[1], 1⟩, ⟨[2], 2⟩] : List (Rank_Data ℚ)).length
            = (inputRaws (RankInput.plainList [(2 : ℚ), 1])).length
          ∧ ([⟨[1], 1⟩, ⟨[2], 2⟩] : List (Rank_Data ℚ)).map Rank_Data.raw
              = (sortByKey keyQ
                  (normalizeInput (RankInput.plainList [(2 : ℚ), 1]))).map
                    Rank_Data.raw
          ∧ (([⟨[1], 1⟩, ⟨[2], 2⟩] : List (Rank_Data ℚ)).map
                Rank_Data.raw).Perm
              (inputRaws (RankInput.plainList [(2 : ℚ), 1]))) := by
  have h : rank_data keyQ (RankInput.plainList [2, 1])
      = Except.ok [⟨[1], 1⟩, ⟨[2], 2⟩] := by
    show Except.ok _ = _
    congr 1
  exact ⟨h, rank_output_bijection keyQ (RankInput.plainList [2, 1])
    [⟨[1], 1⟩, ⟨[2], 2⟩] h⟩

theorem rank_pass_composability_witness :
    rank_data keyQ (RankInput.rdList [⟨[7], 2⟩, ⟨[9], 1⟩])
        = Except.ok [⟨[9, 1], 1⟩, ⟨[7, 2], 2⟩]
      ∧ (([⟨[9, 1], 1⟩, ⟨[7, 2], 2⟩] : List (Rank_Data ℚ)).length
            = ([⟨[7], 2⟩, ⟨[9], 1⟩] : List (Rank_Data ℚ)).length
          ∧ (∀ i (hi : i < ([⟨[9, 1], 1⟩, ⟨[7, 2], 2⟩]
                : List (Rank_Data ℚ)).length)
              (hs : i < (sortByKey keyQ [⟨[7], 2⟩, ⟨[9], 1⟩]).length),
              ∃ r : ℚ,
                (([⟨[9, 1], 1⟩, ⟨[7, 2], 2⟩]
                    : List (Rank_Data ℚ)).get ⟨i, hi⟩).rank_seq
                    = ((sortByKey keyQ
                        [⟨[7], 2⟩, ⟨[9], 1⟩]).get ⟨i, hs⟩).rank_seq ++ [r]
                  ∧ (([⟨[9, 1], 1⟩, ⟨[7, 2], 2⟩]
                      : List (Rank_Data ℚ)).get ⟨i, hi⟩).raw
                      = ((sortByKey keyQ
                          [⟨[7], 2⟩, ⟨[9], 1⟩]).get ⟨i, hs⟩).raw)
          ∧ (([⟨[9, 1], 1⟩, ⟨[7, 2], 2⟩] : List (Rank_Data ℚ)).map
                Rank_Data.raw).Perm
              (([⟨[7], 2⟩, ⟨[9], 1⟩] : List (Rank_Data ℚ)).map Rank_Data.raw)
          ∧ ∀ (m : List ℚ) (out2 : List (Rank_Data ℚ)),
              rank_data keyQ (RankInput.plainList m) = .ok out2 →
              (out2.map Rank_Data.raw).Perm m) := by
  have h : rank_data keyQ (RankInput.rdList [⟨[7], 2⟩, ⟨[9], 1⟩])
      = Except.ok [⟨[9, 1], 1⟩, ⟨[7, 2], 2⟩] := by
    show Except.ok _ = _
    congr 1
  exact ⟨h, rank_pass_composability keyQ [⟨[7], 2⟩, ⟨[9], 1⟩]
    [⟨[9, 1], 1⟩, ⟨[7, 2], 2⟩] h⟩

theorem distinct_keys_integer_ranks_witness :
    ([⟨[], 2⟩, ⟨[], 1⟩] : List (Rank_Data ℚ)) ≠ []
      ∧ (([⟨[], 2⟩, ⟨[], 1⟩] : List (Rank_Data ℚ)).map
          (fun r => keyQ r.raw)).Nodup
      ∧ ((rerank keyQ [⟨[], 2⟩, ⟨[], 1⟩]).get ⟨0, by decide⟩).1
          = ((0 : ℕ) : ℚ) + 1 :=
  ⟨by decide, by decide,
    distinct_keys_integer_ranks keyQ [⟨[], 2⟩, ⟨[], 1⟩]
      (by decide) (by decide) 0 (by decide)⟩

theorem equal_keys_consecutive_stable_witness :
    ((5 / 2 : ℚ), (⟨[], 2⟩ : Rank_Data ℚ)) ∈ rerank keyQ lW
      ∧ keyQ ((5 / 2 : ℚ), (⟨[], 2⟩ : Rank_Data ℚ)).2.raw
          = keyQ ((5 / 2 : ℚ), (⟨[], 2⟩ : Rank_Data ℚ)).2.raw
      ∧ ((5 / 2 : ℚ), (⟨[], 2⟩ : Rank_Data ℚ)).1
          = ((5 / 2 : ℚ), (⟨[], 2⟩ : Rank_Data ℚ)).1
      ∧ ((rerank keyQ lW).map Prod.snd).filter
            (fun r => decide (keyQ r.raw = 2))
          = lW.filter (fun r => decide (keyQ r.raw = 2)) :=
  ⟨by decide, rfl,
    (equal_keys_consecutive_stable keyQ lW).1
      ((5 / 2 : ℚ), (⟨[], 2⟩ : Rank_Data ℚ)) (by decide)
      ((5 / 2 : ℚ), (⟨[], 2⟩ : Rank_Data ℚ)) (by decide) rfl,
    (equal_keys_consecutive_stable keyQ lW).2.2 2⟩

theorem ranks_positive_key_determined_witness :
    ((1 : ℚ), (⟨[], 1⟩ : Rank_Data ℚ)) ∈ rerank keyQ [⟨[], 2⟩, ⟨[], 1⟩]
      ∧ (0 : ℚ) < ((1 : ℚ), (⟨[], 1⟩ : Rank_Data ℚ)).1
      ∧ ([⟨[], 2⟩, ⟨[], 1⟩] : List (Rank_Data ℚ)).length
          = ([⟨[], 20⟩, ⟨[], 10⟩] : List (Rank_Data ℚ)).length
      ∧ (∀ (i : ℕ)
          (hi1 : i < ([⟨[], 2⟩, ⟨[], 1⟩] : List (Rank_Data ℚ)).length)
          (hi2 : i < ([⟨[], 20⟩, ⟨[], 10⟩] : List (Rank_Data ℚ)).length)
          (j : ℕ)
          (hj1 : j < ([⟨[], 2⟩, ⟨[], 1⟩] : List (Rank_Data ℚ)).length)
          (hj2 : j < ([⟨[], 20⟩, ⟨[], 10⟩] : List (Rank_Data ℚ)).length),
          (keyQ (([⟨[], 2⟩, ⟨[], 1⟩]
                : List (Rank_Data ℚ)).get ⟨i, hi1⟩).raw
              ≤ keyQ (([⟨[], 2⟩, ⟨[], 1⟩]
                : List (Rank_Data ℚ)).get ⟨j, hj1⟩).raw
            ↔ keyQ (([⟨[], 20⟩, ⟨[], 10⟩]
                : List (Rank_Data ℚ)).get ⟨i, hi2⟩).raw
              ≤ keyQ (([⟨[], 20⟩, ⟨[], 10⟩]
                : List (Rank_Data ℚ)).get ⟨j, hj2⟩).raw))
      ∧ ((rerank keyQ [⟨[], 2⟩, ⟨[], 1⟩]).map Prod.fst).Perm
          ((rerank keyQ [⟨[], 20⟩, ⟨[], 10⟩]).map Prod.fst) :=
  ⟨by decide,
    (ranks_positive_key_determined keyQ keyQ
        [⟨[], 2⟩, ⟨[], 1⟩] [⟨[], 20⟩, ⟨[], 10⟩]).1
      ((1 : ℚ), (⟨[], 1⟩ : Rank_Data ℚ)) (by decide),
    by decide, by decide,
    (ranks_positive_key_determined keyQ keyQ
        [⟨[], 2⟩, ⟨[], 1⟩] [⟨[], 20⟩, ⟨[], 10⟩]).2
      (by decide) (by decide)⟩

theorem rank_bounds_half_integral_witness :
    lW3 ≠ []
      ∧ ((2 : ℚ), (⟨[], 5⟩ : Rank_Data ℚ)) ∈ rerank keyQ lW3
      ∧ (1 ≤ ((2 : ℚ), (⟨[], 5⟩ : Rank_Data ℚ)).1
          ∧ ((2 : ℚ), (⟨[], 5⟩ : Rank_Data ℚ)).1 ≤ (lW3.length : ℚ)
          ∧ ∃ m : ℕ, 0 < m
              ∧ 2 * ((2 : ℚ), (⟨[], 5⟩ : Rank_Data ℚ)).1 = (m : ℚ)) :=
  ⟨by decide, by decide,
    rank_bounds_half_integral keyQ lW3 (by decide)
      ((2 : ℚ), (⟨[], 5⟩ : Rank_Data ℚ)) (by decide)⟩

theorem final_flush_emits_run_witness :
    ranker keyQ [] 3 lW3
        = lW3.map (fun r => ((3 + 1 + 3 + (lW3.length : ℚ)) / 2, r))
      ∧ (ranker keyQ [] 3 lW3).length = lW3.length :=
  final_flush_emits_run keyQ 3 lW3

theorem empty_input_raises_indexError_witness :
    rank_data keyQ (RankInput.plainList ([] : List ℚ))
        = Except.error RankError.indexError
      ∧ rank_data keyQ (RankInput.rdList ([] : List (Rank_Data ℚ)))
          = Except.error RankError.indexError
      ∧ ∀ inp : RankInput ℚ,
          rank_data keyQ inp ≠ Except.error RankError.emptyInputError :=
  empty_input_raises_indexError keyQ

end WitnessEvaluation
